import Mathlib

/-!
Verification of the 24-game core logic (src/script.js).

The arithmetic engine and the solvability search are embedded shallowly:
JavaScript numbers are modelled as rationals `ℚ` (every value the strict
solver manipulates is exactly representable, so double rounding never
occurs on the inputs considered here), the JavaScript remainder operator
`%` is modelled by `jsMod` (truncated division, sign of the dividend), and
the recursive function `findSolution` is embedded with an explicit fuel
parameter (`searchF`), instantiated at `fuel = length` exactly as the
recursion depth of the source; fuel-irrelevance is proved below.

The nested `for i / for j / for opKey` loops with early `return` in
`findSolution` are embedded as `List.findSome?` over the candidate list
`pairs l`, which enumerates `(i, j, op)` with `i` ascending, `j`
ascending, and the operators in the declared insertion order
`+`, `-`, `×`, `÷`, exactly the iteration order of the source loops.
-/

attribute [local semireducible] Rat.add Rat.sub Rat.mul Rat.inv

/-- `const TARGET = 24`. -/
def TARGET : ℚ := 24

/-- `const EPSILON = 1e-6`. -/
def EPSILON : ℚ := 1 / 1000000

/-- The four operator keys of the `OPS` object, in insertion order. -/
inductive Op : Type
| add
| sub
| mul
| div
deriving DecidableEq

/-- The `calc` field of each `OPS` entry (on finite numeric operands). -/
def Op.apply : Op → ℚ → ℚ → ℚ
| .add, a, b => a + b
| .sub, a, b => a - b
| .mul, a, b => a * b
| .div, a, b => a / b

/-- The iteration order of `for (const opKey in OPS)`: insertion order. -/
def opOrder : List Op := [Op.add, Op.sub, Op.mul, Op.div]

/-- Truncation toward zero of a rational, as JavaScript truncates in the
semantics of `%` (`a % b = a - b * trunc(a / b)` for finite operands). -/
def ratTrunc (q : ℚ) : ℤ := q.num.tdiv q.den

/-- The JavaScript remainder `a % b` on finite operands with `b ≠ 0`:
the remainder of truncated division, carrying the sign of the dividend. -/
def jsMod (a b : ℚ) : ℚ := a - b * (ratTrunc (a / b) : ℚ)

/-- `Math.abs`. -/
def ratAbs (q : ℚ) : ℚ := if q < 0 then -q else q

/-- The `continue` guards of the inner operator loop of `findSolution`:
`skipOp op a b = true` exactly when the source skips `a op b`
(commutative canonicalization for `+`/`×`, no negatives for `-`,
and for `÷` a zero divisor or a non-exact quotient). -/
def skipOp : Op → ℚ → ℚ → Bool
| .add, a, b => decide (a < b)
| .mul, a, b => decide (a < b)
| .sub, a, b => decide (a < b)
| .div, a, b => decide (b = 0) || decide (jsMod a b ≠ 0)

/-- The object `{ a, op: opKey, b, res }` returned by `findSolution`. -/
structure Step : Type where
  a : ℚ
  op : Op
  b : ℚ
  res : ℚ
deriving DecidableEq

/-- The three possible results of `findSolution`: `null`, the literal
`true` of the base case, or a solution-step object. -/
inductive SearchResult : Type
| notFound
| foundBase
| foundStep (s : Step)
deriving DecidableEq

/-- JavaScript truthiness of a `findSolution` result:
`null` is falsy, `true` and objects are truthy. -/
def SearchResult.isFound : SearchResult → Bool
| .notFound => false
| .foundBase => true
| .foundStep _ => true

/-- `currentNums.filter((_, idx) => idx !== i && idx !== j)`, with the
running index made explicit. -/
def filterIdxAux (i j : ℕ) : List ℚ → ℕ → List ℚ
| [], _ => []
| x :: xs, k => if k ≠ i ∧ k ≠ j then x :: filterIdxAux i j xs (k + 1) else filterIdxAux i j xs (k + 1)

/-- The `remaining` list of `findSolution`: all elements except the ones
at positions `i` and `j`. -/
def removeTwo (l : List ℚ) (i j : ℕ) : List ℚ := filterIdxAux i j l 0

/-- The flattened iteration of the nested loops
`for i / for j (skip i = j) / for opKey in OPS`, in source order. -/
def pairs (l : List ℚ) : List (ℕ × ℕ × Op) :=
  (List.range l.length).flatMap fun i =>
    (List.range l.length).flatMap fun j =>
      if i = j then [] else opOrder.map fun op => (i, j, op)

/-- One iteration of the operator loop body of `findSolution`: apply the
`continue` guards, compute `res = op.calc(a, b)`, recurse on
`[...remaining, res]`, and return the step object on success.
`recurse` is the recursive occurrence of the search. -/
def attemptStep (sk : Op → ℚ → ℚ → Bool) (recurse : List ℚ → SearchResult) (l : List ℚ) (c : ℕ × ℕ × Op) : Option Step :=
  let a := l.getD c.1 0
  let b := l.getD c.2.1 0
  let op := c.2.2
  if sk op a b then none
  else
    let res := op.apply a b
    if (recurse (removeTwo l c.1 c.2.1 ++ [res])).isFound then some ⟨a, op, b, res⟩ else none

/-- The body of `findSolution`, with explicit fuel and the skip guards
abstracted (`skipOp` recovers the source; `skipBoth` below is the
spec's both-orders variant). Each recursive call is on a list exactly
one element shorter, so `fuel = length` suffices (proved below). -/
def searchF (sk : Op → ℚ → ℚ → Bool) : ℕ → List ℚ → SearchResult
| 0, _ => .notFound
| fuel + 1, l =>
  if l.length = 1 then
    if ratAbs (l.getD 0 0 - TARGET) < EPSILON then .foundBase else .notFound
  else
    match (pairs l).findSome? (attemptStep sk (fun l' => searchF sk fuel l') l) with
    | some s => .foundStep s
    | none => .notFound

/-- `findSolution` with explicit fuel. -/
def findSolutionF : ℕ → List ℚ → SearchResult := searchF skipOp

/-- The source's `findSolution(currentNums)`: the recursion depth is
bounded by the length of the list. -/
def findSolution (l : List ℚ) : SearchResult := findSolutionF l.length l

/-- A JavaScript value that can arise from `OPS[op].calc` on finite
numeric operands, together with `null` (the value the dead
division-by-zero check of `performCalculation` compares against). -/
inductive JSVal : Type
| num (q : ℚ)
| posInf
| negInf
| nan
| null
deriving DecidableEq

/-- JavaScript division of finite numbers: `a / 0` is `Infinity`
(sign of the dividend) or `NaN` for `0 / 0`, never `null`. -/
def jsDiv (a b : ℚ) : JSVal :=
  if b = 0 then (if a = 0 then .nan else if 0 < a then .posInf else .negInf)
  else .num (a / b)

/-- `OPS[op].calc(a, b)` as executed by the UI (`performCalculation`),
on finite numeric operands. -/
def opsCalc : Op → ℚ → ℚ → JSVal
| .add, a, b => .num (a + b)
| .sub, a, b => .num (a - b)
| .mul, a, b => .num (a * b)
| .div, a, b => jsDiv a b

/-- The decision slice of `performCalculation`: compute
`resultVal = OPS[op].calc(left, right)`; if `resultVal === null` the move
is aborted (`none`, the "Cannot divide by zero!" branch), otherwise the
move proceeds with the computed value (`some resultVal`). -/
def performCalculation (a : ℚ) (op : Op) (b : ℚ) : Option JSVal :=
  let resultVal := opsCalc op a b
  if resultVal = JSVal.null then none else some resultVal

/-- All operator applications `res = op.calc(a, b)` whose guards pass and
whose result the solvability search can therefore compute, anywhere in
its recursion tree (a superset of the applications performed in one run,
which stops at the first success). -/
def allApps : ℕ → List ℚ → List Step
| 0, _ => []
| fuel + 1, l =>
  if l.length = 1 then []
  else
    (pairs l).flatMap fun c =>
      let a := l.getD c.1 0
      let b := l.getD c.2.1 0
      let op := c.2.2
      if skipOp op a b then []
      else
        let res := op.apply a b
        ⟨a, op, b, res⟩ :: allApps fuel (removeTwo l c.1 c.2.1 ++ [res])

/-- Applying one reduction step at positions `i`, `j`: the working set
loses the two operands and gains the single result, exactly as
`performCalculation` filters out the two used numbers and pushes the
result (and as the recursion of `findSolution` builds
`[...remaining, res]`). -/
def applyStepAt (l : List ℚ) (i j : ℕ) (op : Op) : List ℚ :=
  removeTwo l i j ++ [op.apply (l.getD i 0) (l.getD j 0)]

/-- Iterated reduction: apply a sequence of steps, each required to name
two distinct in-range positions. -/
def applySteps : List ℚ → List (ℕ × ℕ × Op) → Option (List ℚ)
| l, [] => some l
| l, (i, j, op) :: rest =>
  if i ≠ j ∧ i < l.length ∧ j < l.length then applySteps (applyStepAt l i j op) rest
  else none

/-- Modelled from the spec: the skip guards of the variant search that
"explores both orders" of each operand pair under the same strict
validity rules (no negative subtraction results, exact nonzero
division), i.e. without the `a < b` canonicalization pruning for the
commutative operators. -/
def skipBoth : Op → ℚ → ℚ → Bool
| .add, _, _ => false
| .mul, _, _ => false
| .sub, a, b => decide (a < b)
| .div, a, b => decide (b = 0) || decide (jsMod a b ≠ 0)

/-- Modelled from the spec: the both-orders variant search
(§4.1: "implementers may instead explore both orders and must still
produce identical solvability verdicts"). -/
def findSolutionBoth (l : List ℚ) : SearchResult := searchF skipBoth l.length l

/-- Strict-mode validity of one operator application (§4.1): addition
and multiplication are always valid, subtraction must not go negative,
division needs a nonzero divisor and an exact quotient. -/
def validStrict : Op → ℚ → ℚ → Prop
| .add, _, _ => True
| .mul, _, _ => True
| .sub, a, b => b ≤ a
| .div, a, b => b ≠ 0 ∧ jsMod a b = 0

/-- The multiset-level solvability predicate: a list reaches 24 when it
is a single value within `EPSILON` of `TARGET`, or some two of its
elements admit a strict-mode-valid application whose reduced list
reaches 24. Stated through `List.Perm`, so invariance under permutation
is built into the shape of the derivation. -/
inductive Reaches24 : List ℚ → Prop
| base (v : ℚ) : ratAbs (v - TARGET) < EPSILON → Reaches24 [v]
| step (l : List ℚ) (a b : ℚ) (r : List ℚ) (op : Op) :
    l.Perm (a :: b :: r) → validStrict op a b →
    Reaches24 (r ++ [op.apply a b]) → Reaches24 l

/-- A nonnegative-integer-valued rational. -/
def isNatQ (q : ℚ) : Prop := ∃ n : ℕ, (n : ℚ) = q

/-- Mirror of `filterIdxAux` on natural numbers (a proof device: proved
below to commute with casting into `ℚ`). -/
def filterIdxAuxN (i j : ℕ) : List ℕ → ℕ → List ℕ
| [], _ => []
| x :: xs, k => if k ≠ i ∧ k ≠ j then x :: filterIdxAuxN i j xs (k + 1) else filterIdxAuxN i j xs (k + 1)

/-- Mirror of `removeTwo` on natural numbers. -/
def removeTwoN (l : List ℕ) (i j : ℕ) : List ℕ := filterIdxAuxN i j l 0

/-- The candidate enumeration as a function of the length alone
(`pairs l = pairsLen l.length` definitionally). -/
def pairsLen (n : ℕ) : List (ℕ × ℕ × Op) :=
  (List.range n).flatMap fun i =>
    (List.range n).flatMap fun j =>
      if i = j then [] else opOrder.map fun op => (i, j, op)

/-- Mirror of the skip guards on natural numbers (`%` is `Nat.mod`,
which agrees with the JavaScript remainder on nonnegative integers). -/
def skipN : Op → ℕ → ℕ → Bool
| .add, a, b => decide (a < b)
| .mul, a, b => decide (a < b)
| .sub, a, b => decide (a < b)
| .div, a, b => decide (b = 0) || decide (a % b ≠ 0)

/-- Mirror of the operators on natural numbers (subtraction is reached
only with `b ≤ a` and division only with an exact nonzero divisor, where
these agree with the rational operators). -/
def Op.applyN : Op → ℕ → ℕ → ℕ
| .add, a, b => a + b
| .sub, a, b => a - b
| .mul, a, b => a * b
| .div, a, b => a / b

/-- Mirror of the strict search on natural numbers: `searchN fuel l`
equals the solvability verdict of `searchF skipOp fuel` on the cast of
`l` (proved below), and evaluates entirely in `ℕ`, so concrete instances
reduce quickly in the kernel. -/
def searchN : ℕ → List ℕ → Bool
| 0, _ => false
| fuel + 1, l =>
  if l.length = 1 then decide (l.getD 0 0 = 24)
  else
    (pairsLen l.length).any fun c =>
      let a := l.getD c.1 0
      let b := l.getD c.2.1 0
      let op := c.2.2
      if skipN op a b then false
      else searchN fuel (removeTwoN l c.1 c.2.1 ++ [Op.applyN op a b])

/-! ### Structural lemmas about the index filter `removeTwo` -/

theorem filterIdxAux_symm (i j : ℕ) (xs : List ℚ) (k : ℕ) :
    filterIdxAux i j xs k = filterIdxAux j i xs k := by
  induction xs generalizing k with
  | nil => rfl
  | cons x xs ih =>
    simp only [filterIdxAux]
    by_cases h : k ≠ i ∧ k ≠ j
    · rw [if_pos h, if_pos ⟨h.2, h.1⟩, ih]
    · rw [if_neg h, if_neg (fun h2 => h ⟨h2.2, h2.1⟩), ih]

theorem filterIdxAux_shift (i j : ℕ) (xs : List ℚ) (k : ℕ) :
    filterIdxAux (i + 1) (j + 1) xs (k + 1) = filterIdxAux i j xs k := by
  induction xs generalizing k with
  | nil => rfl
  | cons x xs ih =>
    simp only [filterIdxAux]
    have hiff : (k + 1 ≠ i + 1 ∧ k + 1 ≠ j + 1) ↔ (k ≠ i ∧ k ≠ j) := by omega
    by_cases h : k ≠ i ∧ k ≠ j
    · rw [if_pos (hiff.mpr h), if_pos h, ih]
    · rw [if_neg (fun hc => h (hiff.mp hc)), if_neg h, ih]

theorem filterIdxAux_of_lt (i j : ℕ) (xs : List ℚ) (k : ℕ) (hi : i < k) (hj : j < k) :
    filterIdxAux i j xs k = xs := by
  induction xs generalizing k with
  | nil => rfl
  | cons x xs ih =>
    simp only [filterIdxAux]
    rw [if_pos ⟨by omega, by omega⟩, ih (k + 1) (by omega) (by omega)]

theorem filterIdxAux_fst_lt (i j : ℕ) (xs : List ℚ) (k : ℕ) (hi : i < k) :
    filterIdxAux i j xs k = filterIdxAux j j xs k := by
  induction xs generalizing k with
  | nil => rfl
  | cons x xs ih =>
    simp only [filterIdxAux]
    have hiff : (k ≠ i ∧ k ≠ j) ↔ (k ≠ j ∧ k ≠ j) := by omega
    by_cases h : k ≠ j ∧ k ≠ j
    · rw [if_pos (hiff.mpr h), if_pos h, ih (k + 1) (by omega)]
    · rw [if_neg (fun hc => h (hiff.mp hc)), if_neg h, ih (k + 1) (by omega)]

theorem removeTwo_same (xs : List ℚ) (m : ℕ) : removeTwo xs m m = xs.eraseIdx m := by
  induction xs generalizing m with
  | nil => rfl
  | cons x xs ih =>
    cases m with
    | zero =>
      show filterIdxAux 0 0 (x :: xs) 0 = _
      simp only [filterIdxAux]
      rw [if_neg (by omega), filterIdxAux_of_lt 0 0 xs 1 (by omega) (by omega)]
      rfl
    | succ m =>
      show filterIdxAux (m + 1) (m + 1) (x :: xs) 0 = _
      simp only [filterIdxAux]
      rw [if_pos (by omega), filterIdxAux_shift]
      show x :: removeTwo xs m m = _
      rw [ih]
      rfl

theorem removeTwo_zero_succ (x : ℚ) (xs : List ℚ) (m : ℕ) :
    removeTwo (x :: xs) 0 (m + 1) = xs.eraseIdx m := by
  show filterIdxAux 0 (m + 1) (x :: xs) 0 = _
  simp only [filterIdxAux]
  rw [if_neg (by omega), filterIdxAux_fst_lt 0 (m + 1) xs 1 (by omega), filterIdxAux_shift]
  exact removeTwo_same xs m

theorem removeTwo_succ_zero (x : ℚ) (xs : List ℚ) (m : ℕ) :
    removeTwo (x :: xs) (m + 1) 0 = xs.eraseIdx m := by
  show filterIdxAux (m + 1) 0 (x :: xs) 0 = _
  rw [filterIdxAux_symm]
  exact removeTwo_zero_succ x xs m

theorem removeTwo_succ_succ (x : ℚ) (xs : List ℚ) (i j : ℕ) :
    removeTwo (x :: xs) (i + 1) (j + 1) = x :: removeTwo xs i j := by
  show filterIdxAux (i + 1) (j + 1) (x :: xs) 0 = _
  simp only [filterIdxAux]
  rw [if_pos (by omega), filterIdxAux_shift]
  rfl

theorem removeTwo_eq_eraseIdx (l : List ℚ) (i j : ℕ) (hij : i ≠ j) :
    removeTwo l i j = (l.eraseIdx i).eraseIdx (if j < i then j else j - 1) := by
  induction l generalizing i j with
  | nil => simp [removeTwo, filterIdxAux, List.eraseIdx]
  | cons x xs ih =>
    match i, j with
    | 0, 0 => exact absurd rfl hij
    | 0, m + 1 =>
      rw [removeTwo_zero_succ]
      have : ¬ (m + 1 < 0) := by omega
      simp [this]
    | m + 1, 0 =>
      rw [removeTwo_succ_zero]
      simp
    | i + 1, j + 1 =>
      rw [removeTwo_succ_succ, ih i j (by omega)]
      by_cases h : j < i
      · rw [if_pos (by omega : j + 1 < i + 1), if_pos h]
        rfl
      · rw [if_neg (by omega : ¬ (j + 1 < i + 1)), if_neg h]
        obtain ⟨t, rfl⟩ : ∃ t, j = t + 1 := ⟨j - 1, by omega⟩
        rfl

theorem length_removeTwo (l : List ℚ) (i j : ℕ) (hi : i < l.length) (hj : j < l.length)
    (hij : i ≠ j) : (removeTwo l i j).length + 2 = l.length := by
  rw [removeTwo_eq_eraseIdx l i j hij]
  have h1 : (l.eraseIdx i).length = l.length - 1 := List.length_eraseIdx_of_lt hi
  have h2 : (if j < i then j else j - 1) < (l.eraseIdx i).length := by
    rw [h1]; split <;> omega
  rw [List.length_eraseIdx_of_lt h2, h1]
  omega

theorem mem_of_mem_removeTwo {x : ℚ} {l : List ℚ} {i j : ℕ} (hij : i ≠ j)
    (hx : x ∈ removeTwo l i j) : x ∈ l := by
  rw [removeTwo_eq_eraseIdx l i j hij] at hx
  exact List.mem_of_mem_eraseIdx (List.mem_of_mem_eraseIdx hx)

/-! ### Selecting two positions out of a list, as a permutation -/

theorem getD_eq_getElem' (l : List ℚ) (i : ℕ) (h : i < l.length) : l.getD i 0 = l[i] := by
  simp [List.getD_eq_getElem?_getD, List.getElem?_eq_getElem h]

theorem perm_getD_cons_eraseIdx (l : List ℚ) (i : ℕ) (h : i < l.length) :
    l.Perm (l.getD i 0 :: l.eraseIdx i) := by
  rw [getD_eq_getElem' l i h]
  exact (List.perm_cons_erase (List.getElem_mem h)).trans ((List.erase_getElem h).cons _)

theorem perm_cons_cons_removeTwo (l : List ℚ) (i j : ℕ) (hi : i < l.length)
    (hj : j < l.length) (hij : i ≠ j) :
    l.Perm (l.getD i 0 :: l.getD j 0 :: removeTwo l i j) := by
  induction l generalizing i j with
  | nil => simp at hi
  | cons x xs ih =>
    match i, j with
    | 0, 0 => exact absurd rfl hij
    | 0, m + 1 =>
      rw [removeTwo_zero_succ]
      simp only [List.getD_cons_zero, List.getD_cons_succ]
      exact (perm_getD_cons_eraseIdx xs m (by simpa using hj)).cons x
    | m + 1, 0 =>
      rw [removeTwo_succ_zero]
      simp only [List.getD_cons_zero, List.getD_cons_succ]
      exact ((perm_getD_cons_eraseIdx xs m (by simpa using hi)).cons x).trans
        (List.Perm.swap _ _ _)
    | i + 1, j + 1 =>
      rw [removeTwo_succ_succ]
      simp only [List.getD_cons_succ]
      have h := ih i j (by simpa using hi) (by simpa using hj) (by omega)
      exact (h.cons x).trans ((List.Perm.swap _ _ _).trans ((List.Perm.swap _ _ _).cons _))

theorem exists_indices_of_perm (l : List ℚ) (a b : ℚ) (r : List ℚ)
    (h : l.Perm (a :: b :: r)) :
    ∃ i j, i < l.length ∧ j < l.length ∧ i ≠ j ∧ l.getD i 0 = a ∧ l.getD j 0 = b ∧
      (removeTwo l i j).Perm r := by
  have ha : a ∈ l := h.mem_iff.mpr (by simp)
  obtain ⟨i, hi, hia⟩ := List.getElem_of_mem ha
  have h1 : l.Perm (a :: l.eraseIdx i) := by
    have := perm_getD_cons_eraseIdx l i hi
    rwa [getD_eq_getElem' l i hi, hia] at this
  have h2 : (b :: r).Perm (l.eraseIdx i) := (h.symm.trans h1).cons_inv
  have hb : b ∈ l.eraseIdx i := h2.mem_iff.mp (by simp)
  obtain ⟨k, hk, hkb⟩ := List.getElem_of_mem hb
  have hlen : (l.eraseIdx i).length = l.length - 1 := List.length_eraseIdx_of_lt hi
  refine ⟨i, if k < i then k else k + 1, hi, ?_, ?_, ?_, ?_, ?_⟩
  · split <;> omega
  · split <;> omega
  · rw [getD_eq_getElem' l i hi, hia]
  · by_cases hki : k < i
    · rw [if_pos hki, getD_eq_getElem' l k (by omega), ← hkb,
        List.getElem_eraseIdx_of_lt l i k hk hki]
    · rw [if_neg hki, getD_eq_getElem' l (k + 1) (by omega), ← hkb,
        List.getElem_eraseIdx_of_ge l i k hk (by omega)]
  · have hrw : removeTwo l i (if k < i then k else k + 1) = (l.eraseIdx i).eraseIdx k := by
      rw [removeTwo_eq_eraseIdx l i _ (by split <;> omega)]
      congr 1
      by_cases hki : k < i
      · rw [if_pos hki, if_pos hki]
      · rw [if_neg hki, if_neg (by omega : ¬ k + 1 < i)]
        omega
    rw [hrw]
    have h3 := perm_getD_cons_eraseIdx (l.eraseIdx i) k hk
    rw [getD_eq_getElem' _ k hk, hkb] at h3
    exact (h2.trans h3).cons_inv.symm

theorem Reaches24.perm {l l' : List ℚ} (h : Reaches24 l) (hp : l.Perm l') : Reaches24 l' := by
  cases h with
  | base v hv =>
    obtain rfl : l' = [v] := (List.singleton_perm.mp hp).symm
    exact .base v hv
  | step l a b r op hperm hvalid hr =>
    exact .step l' a b r op (hp.symm.trans hperm) hvalid hr

/-! ### The candidate enumeration and the skip guards -/

theorem op_mem_opOrder (op : Op) : op ∈ opOrder := by
  cases op <;> simp [opOrder]

theorem mem_pairs {l : List ℚ} {c : ℕ × ℕ × Op} :
    c ∈ pairs l ↔ c.1 < l.length ∧ c.2.1 < l.length ∧ c.1 ≠ c.2.1 := by
  obtain ⟨i, j, op⟩ := c
  simp only [pairs, List.mem_flatMap, List.mem_range]
  constructor
  · rintro ⟨i', hi', j', hj', hmem⟩
    by_cases h : i' = j'
    · simp [h] at hmem
    · rw [if_neg h] at hmem
      simp only [List.mem_map] at hmem
      obtain ⟨op', _, heq⟩ := hmem
      simp only [Prod.mk.injEq] at heq
      obtain ⟨rfl, rfl, rfl⟩ := heq
      exact ⟨hi', hj', h⟩
  · rintro ⟨hi, hj, hij⟩
    refine ⟨i, hi, j, hj, ?_⟩
    rw [if_neg hij]
    exact List.mem_map.mpr ⟨op, op_mem_opOrder op, rfl⟩

theorem validStrict_of_skipOp_false {op : Op} {a b : ℚ} (h : skipOp op a b = false) :
    validStrict op a b := by
  cases op with
  | add => trivial
  | mul => trivial
  | sub =>
    simp only [skipOp, decide_eq_false_iff_not] at h
    exact not_lt.mp h
  | div =>
    simp only [skipOp, Bool.or_eq_false_iff, decide_eq_false_iff_not] at h
    exact ⟨h.1, not_not.mp h.2⟩

theorem validStrict_of_skipBoth_false {op : Op} {a b : ℚ} (h : skipBoth op a b = false) :
    validStrict op a b := by
  cases op with
  | add => trivial
  | mul => trivial
  | sub =>
    simp only [skipBoth, decide_eq_false_iff_not] at h
    exact not_lt.mp h
  | div =>
    simp only [skipBoth, Bool.or_eq_false_iff, decide_eq_false_iff_not] at h
    exact ⟨h.1, not_not.mp h.2⟩

theorem skipOp_complete {op : Op} {a b : ℚ} (h : validStrict op a b) :
    ∃ a' b', skipOp op a' b' = false ∧ Op.apply op a' b' = Op.apply op a b ∧
      ((a' = a ∧ b' = b) ∨ (a' = b ∧ b' = a)) := by
  cases op with
  | add =>
    rcases le_or_lt b a with hba | hab
    · exact ⟨a, b, by simp only [skipOp, decide_eq_false_iff_not]; exact not_lt.mpr hba,
        rfl, Or.inl ⟨rfl, rfl⟩⟩
    · exact ⟨b, a, by simp only [skipOp, decide_eq_false_iff_not]; exact not_lt.mpr hab.le,
        by simp only [Op.apply]; exact add_comm b a, Or.inr ⟨rfl, rfl⟩⟩
  | mul =>
    rcases le_or_lt b a with hba | hab
    · exact ⟨a, b, by simp only [skipOp, decide_eq_false_iff_not]; exact not_lt.mpr hba,
        rfl, Or.inl ⟨rfl, rfl⟩⟩
    · exact ⟨b, a, by simp only [skipOp, decide_eq_false_iff_not]; exact not_lt.mpr hab.le,
        by simp only [Op.apply]; exact mul_comm b a, Or.inr ⟨rfl, rfl⟩⟩
  | sub =>
    exact ⟨a, b, by simp only [skipOp, decide_eq_false_iff_not]; exact not_lt.mpr h,
      rfl, Or.inl ⟨rfl, rfl⟩⟩
  | div =>
    refine ⟨a, b, ?_, rfl, Or.inl ⟨rfl, rfl⟩⟩
    simp only [skipOp, Bool.or_eq_false_iff, decide_eq_false_iff_not]
    exact ⟨h.1, not_not.mpr h.2⟩

theorem skipBoth_complete {op : Op} {a b : ℚ} (h : validStrict op a b) :
    ∃ a' b', skipBoth op a' b' = false ∧ Op.apply op a' b' = Op.apply op a b ∧
      ((a' = a ∧ b' = b) ∨ (a' = b ∧ b' = a)) := by
  cases op with
  | add => exact ⟨a, b, rfl, rfl, Or.inl ⟨rfl, rfl⟩⟩
  | mul => exact ⟨a, b, rfl, rfl, Or.inl ⟨rfl, rfl⟩⟩
  | sub =>
    exact ⟨a, b, by simp only [skipBoth, decide_eq_false_iff_not]; exact not_lt.mpr h,
      rfl, Or.inl ⟨rfl, rfl⟩⟩
  | div =>
    refine ⟨a, b, ?_, rfl, Or.inl ⟨rfl, rfl⟩⟩
    simp only [skipBoth, Bool.or_eq_false_iff, decide_eq_false_iff_not]
    exact ⟨h.1, not_not.mpr h.2⟩

theorem findSome?_congr {α β : Type} (L : List α) (f g : α → Option β)
    (h : ∀ x ∈ L, f x = g x) : L.findSome? f = L.findSome? g := by
  induction L with
  | nil => rfl
  | cons x xs ih =>
    rw [List.findSome?_cons, List.findSome?_cons, h x (List.mem_cons_self x xs)]
    cases g x with
    | none => exact ih fun y hy => h y (List.mem_cons_of_mem x hy)
    | some b => rfl

/-! ### The search decides `Reaches24` -/

theorem searchF_isFound_iff (sk : Op → ℚ → ℚ → Bool)
    (hA : ∀ op a b, sk op a b = false → validStrict op a b)
    (hB : ∀ op a b, validStrict op a b → ∃ a' b', sk op a' b' = false ∧
      Op.apply op a' b' = Op.apply op a b ∧ ((a' = a ∧ b' = b) ∨ (a' = b ∧ b' = a))) :
    ∀ fuel (l : List ℚ), l.length ≤ fuel →
      ((searchF sk fuel l).isFound = true ↔ Reaches24 l) := by
  intro fuel
  induction fuel with
  | zero =>
    intro l hl
    obtain rfl : l = [] := List.length_eq_zero.mp (by omega)
    constructor
    · intro h
      exact absurd h (by simp [searchF, SearchResult.isFound])
    · intro h
      cases h with
      | step l a b r op hperm hvalid hr =>
        have := hperm.length_eq
        simp at this
  | succ fuel ih =>
    intro l hl
    by_cases h1 : l.length = 1
    · obtain ⟨v, rfl⟩ := List.length_eq_one.mp h1
      have hunfold : searchF sk (fuel + 1) [v] =
          if ratAbs (v - TARGET) < EPSILON then .foundBase else .notFound := by
        simp [searchF]
      rw [hunfold]
      constructor
      · intro h
        split at h
        · exact .base v ‹_›
        · simp [SearchResult.isFound] at h
      · intro h
        cases h with
        | base w hw => simp [hw, SearchResult.isFound]
        | step l a b r op hperm hvalid hr =>
          have := hperm.length_eq
          simp at this
    · have hunfold : searchF sk (fuel + 1) l =
          match (pairs l).findSome? (attemptStep sk (fun l' => searchF sk fuel l') l) with
          | some s => .foundStep s
          | none => .notFound := by
        simp [searchF, h1]
      rw [hunfold]
      constructor
      · intro h
        cases hfs : (pairs l).findSome? (attemptStep sk (fun l' => searchF sk fuel l') l) with
        | none => rw [hfs] at h; simp [SearchResult.isFound] at h
        | some s =>
          obtain ⟨c, hc, hstep⟩ := List.exists_of_findSome?_eq_some hfs
          obtain ⟨hi, hj, hij⟩ := mem_pairs.mp hc
          simp only [attemptStep] at hstep
          by_cases hsk : sk c.2.2 (l.getD c.1 0) (l.getD c.2.1 0) = true
          · rw [if_pos hsk] at hstep
            exact absurd hstep (by simp)
          · rw [Bool.not_eq_true] at hsk
            rw [if_neg (by rw [hsk]; exact Bool.false_ne_true)] at hstep
            by_cases hrec : (searchF sk fuel (removeTwo l c.1 c.2.1 ++
                [Op.apply c.2.2 (l.getD c.1 0) (l.getD c.2.1 0)])).isFound = true
            · have hlr := length_removeTwo l c.1 c.2.1 hi hj hij
              have hlen2 : (removeTwo l c.1 c.2.1 ++
                  [Op.apply c.2.2 (l.getD c.1 0) (l.getD c.2.1 0)]).length ≤ fuel := by
                simp only [List.length_append, List.length_cons, List.length_nil]
                omega
              have hsub := (ih _ hlen2).mp hrec
              exact .step l _ _ _ c.2.2 (perm_cons_cons_removeTwo l c.1 c.2.1 hi hj hij)
                (hA _ _ _ hsk) hsub
            · rw [if_neg hrec] at hstep
              exact absurd hstep (by simp)
      · intro h
        cases h with
        | base w hw => simp at h1
        | step l a b r op hperm hvalid hr =>
          obtain ⟨a', b', hsk, happly, hcase⟩ := hB op a b hvalid
          have hperm' : l.Perm (a' :: b' :: r) := by
            rcases hcase with ⟨rfl, rfl⟩ | ⟨rfl, rfl⟩
            · exact hperm
            · exact hperm.trans (List.Perm.swap _ _ _)
          obtain ⟨i, j, hi, hj, hij, hgi, hgj, hpr⟩ := exists_indices_of_perm l a' b' r hperm'
          have hlr := length_removeTwo l i j hi hj hij
          have hsubperm : (removeTwo l i j ++ [Op.apply op a' b']).Perm
              (r ++ [Op.apply op a b]) := by
            rw [happly]
            exact hpr.append_right _
          have hsub : Reaches24 (removeTwo l i j ++ [Op.apply op a' b']) :=
            hr.perm hsubperm.symm
          have hlen4 : (removeTwo l i j ++ [Op.apply op a' b']).length ≤ fuel := by
            simp only [List.length_append, List.length_cons, List.length_nil]
            omega
          have hrec : (searchF sk fuel (removeTwo l i j ++ [Op.apply op a' b'])).isFound
              = true := (ih _ hlen4).mpr hsub
          have hsome : (attemptStep sk (fun l' => searchF sk fuel l') l (i, j, op)).isSome
              = true := by
            simp only [attemptStep]
            rw [hgi, hgj, if_neg (by simp [hsk]), if_pos hrec]
            rfl
          have hex : ((pairs l).findSome?
              (attemptStep sk (fun l' => searchF sk fuel l') l)).isSome = true :=
            List.findSome?_isSome_iff.mpr ⟨(i, j, op), mem_pairs.mpr ⟨hi, hj, hij⟩, hsome⟩
          obtain ⟨s, hs⟩ := Option.isSome_iff_exists.mp hex
          rw [hs]
          rfl

theorem findSolution_isFound_iff (l : List ℚ) :
    (findSolution l).isFound = true ↔ Reaches24 l :=
  searchF_isFound_iff skipOp (fun _ _ _ h => validStrict_of_skipOp_false h)
    (fun _ _ _ h => skipOp_complete h) l.length l le_rfl

theorem findSolutionBoth_isFound_iff (l : List ℚ) :
    (findSolutionBoth l).isFound = true ↔ Reaches24 l :=
  searchF_isFound_iff skipBoth (fun _ _ _ h => validStrict_of_skipBoth_false h)
    (fun _ _ _ h => skipBoth_complete h) l.length l le_rfl

theorem searchF_fuel_irrelevant (sk : Op → ℚ → ℚ → Bool) :
    ∀ f1 f2 (l : List ℚ), l.length ≤ f1 → l.length ≤ f2 →
      searchF sk f1 l = searchF sk f2 l := by
  intro f1
  induction f1 with
  | zero =>
    intro f2 l h1 h2
    obtain rfl : l = [] := List.length_eq_zero.mp (by omega)
    cases f2 with
    | zero => rfl
    | succ f2 => simp [searchF, pairs]
  | succ f1 ih =>
    intro f2 l h1 h2
    cases f2 with
    | zero =>
      obtain rfl : l = [] := List.length_eq_zero.mp (by omega)
      simp [searchF, pairs]
    | succ f2 =>
      by_cases hl : l.length = 1
      · simp [searchF, hl]
      · have hcong : (pairs l).findSome? (attemptStep sk (fun l' => searchF sk f1 l') l) =
            (pairs l).findSome? (attemptStep sk (fun l' => searchF sk f2 l') l) := by
          apply findSome?_congr
          intro c hc
          obtain ⟨hi, hj, hij⟩ := mem_pairs.mp hc
          have hlr := length_removeTwo l c.1 c.2.1 hi hj hij
          have heq := ih f2
            (removeTwo l c.1 c.2.1 ++ [Op.apply c.2.2 (l.getD c.1 0) (l.getD c.2.1 0)])
            (by simp only [List.length_append, List.length_cons, List.length_nil]; omega)
            (by simp only [List.length_append, List.length_cons, List.length_nil]; omega)
          simp only [attemptStep, heq]
        simp only [searchF, if_neg hl]
        rw [hcong]

theorem ratAbs_eq_abs (q : ℚ) : ratAbs q = |q| := by
  unfold ratAbs
  rcases lt_or_le q 0 with h | h
  · rw [if_pos h, abs_of_neg h]
  · rw [if_neg (not_lt.mpr h), abs_of_nonneg h]

/-! ### The applications explored by the search -/

theorem allApps_div_guarded : ∀ fuel (l : List ℚ) (s : Step), s ∈ allApps fuel l →
    s.op = Op.div → s.b ≠ 0 ∧ jsMod s.a s.b = 0 := by
  intro fuel
  induction fuel with
  | zero =>
    intro l s hs
    simp [allApps] at hs
  | succ fuel ih =>
    intro l s hs hdiv
    simp only [allApps] at hs
    by_cases hl : l.length = 1
    · rw [if_pos hl] at hs
      simp at hs
    · rw [if_neg hl] at hs
      simp only [List.mem_flatMap] at hs
      obtain ⟨c, hc, hmem⟩ := hs
      by_cases hsk : skipOp c.2.2 (l.getD c.1 0) (l.getD c.2.1 0) = true
      · rw [if_pos hsk] at hmem
        simp at hmem
      · rw [Bool.not_eq_true] at hsk
        rw [if_neg (by rw [hsk]; exact Bool.false_ne_true)] at hmem
        rcases List.mem_cons.mp hmem with rfl | hmem'
        · have hop : c.2.2 = Op.div := hdiv
          rw [hop] at hsk
          exact validStrict_of_skipOp_false hsk
        · exact ih _ s hmem' hdiv

theorem foundStep_mem_allApps : ∀ fuel (l : List ℚ) (s : Step),
    findSolutionF fuel l = .foundStep s → s ∈ allApps fuel l := by
  intro fuel l s h
  cases fuel with
  | zero => simp [findSolutionF, searchF] at h
  | succ fuel =>
    by_cases hl : l.length = 1
    · have hbase : findSolutionF (fuel + 1) l =
          if ratAbs (l.getD 0 0 - TARGET) < EPSILON then .foundBase else .notFound := by
        simp [findSolutionF, searchF, hl]
      rw [hbase] at h
      split at h <;> simp at h
    · have hunfold : findSolutionF (fuel + 1) l =
          match (pairs l).findSome? (attemptStep skipOp (fun l' => searchF skipOp fuel l') l) with
          | some s => .foundStep s
          | none => .notFound := by
        simp [findSolutionF, searchF, hl]
      rw [hunfold] at h
      cases hfs : (pairs l).findSome? (attemptStep skipOp (fun l' => searchF skipOp fuel l') l) with
      | none => rw [hfs] at h; simp at h
      | some s' =>
        rw [hfs] at h
        have hss : s' = s := by injection h
        subst hss
        obtain ⟨c, hc, hstep⟩ := List.exists_of_findSome?_eq_some hfs
        simp only [attemptStep] at hstep
        by_cases hsk : skipOp c.2.2 (l.getD c.1 0) (l.getD c.2.1 0) = true
        · rw [if_pos hsk] at hstep
          exact absurd hstep (by simp)
        · rw [Bool.not_eq_true] at hsk
          rw [if_neg (by rw [hsk]; exact Bool.false_ne_true)] at hstep
          by_cases hrec : (searchF skipOp fuel (removeTwo l c.1 c.2.1 ++
              [Op.apply c.2.2 (l.getD c.1 0) (l.getD c.2.1 0)])).isFound = true
          · rw [if_pos hrec] at hstep
            have hs' : s' = ⟨l.getD c.1 0, c.2.2, l.getD c.2.1 0,
                Op.apply c.2.2 (l.getD c.1 0) (l.getD c.2.1 0)⟩ := by
              injection hstep with h'
              exact h'.symm
            subst hs'
            simp only [allApps]
            rw [if_neg hl]
            refine List.mem_flatMap.mpr ⟨c, hc, ?_⟩
            rw [if_neg (by rw [hsk]; exact Bool.false_ne_true)]
            exact List.mem_cons_self _ _
          · rw [if_neg hrec] at hstep
            exact absurd hstep (by simp)

/-! ### Closure of the strict search over nonnegative integers -/

theorem isNatQ_apply {op : Op} {a b : ℚ} (hv : validStrict op a b)
    (ha : isNatQ a) (hb : isNatQ b) : isNatQ (Op.apply op a b) := by
  obtain ⟨m, rfl⟩ := ha
  obtain ⟨k, rfl⟩ := hb
  cases op with
  | add => exact ⟨m + k, by simp only [Op.apply]; push_cast; ring⟩
  | mul => exact ⟨m * k, by simp only [Op.apply]; push_cast; ring⟩
  | sub =>
    have hk : (k : ℚ) ≤ (m : ℚ) := hv
    have hkm : k ≤ m := by exact_mod_cast hk
    exact ⟨m - k, by simp only [Op.apply]; push_cast [Nat.cast_sub hkm]; ring⟩
  | div =>
    obtain ⟨hb0, hmod⟩ := hv
    unfold jsMod at hmod
    set t := ratTrunc ((m : ℚ) / (k : ℚ)) with ht
    have hmain : (m : ℚ) = (k : ℚ) * (t : ℚ) := by
      have := sub_eq_zero.mp hmod
      linarith
    have hdiv : (m : ℚ) / (k : ℚ) = (t : ℚ) := by
      rw [div_eq_iff hb0, mul_comm]
      exact hmain
    have ht0 : (0 : ℤ) ≤ t := by
      have h1 : (0 : ℚ) ≤ (m : ℚ) / (k : ℚ) :=
        div_nonneg (Nat.cast_nonneg m) (Nat.cast_nonneg k)
      rw [hdiv] at h1
      exact_mod_cast h1
    refine ⟨t.toNat, ?_⟩
    show ((t.toNat : ℕ) : ℚ) = (m : ℚ) / (k : ℚ)
    rw [hdiv]
    exact_mod_cast congrArg (fun z : ℤ => (z : ℚ)) (Int.toNat_of_nonneg ht0)

theorem allApps_nat_closure : ∀ fuel (l : List ℚ), (∀ x ∈ l, isNatQ x) →
    ∀ s ∈ allApps fuel l, isNatQ s.a ∧ isNatQ s.b ∧ isNatQ s.res ∧
      s.res = Op.apply s.op s.a s.b ∧ (s.op = Op.sub → s.b ≤ s.a) := by
  intro fuel
  induction fuel with
  | zero =>
    intro l hnat s hs
    simp [allApps] at hs
  | succ fuel ih =>
    intro l hnat s hs
    simp only [allApps] at hs
    by_cases hl : l.length = 1
    · rw [if_pos hl] at hs
      simp at hs
    · rw [if_neg hl] at hs
      simp only [List.mem_flatMap] at hs
      obtain ⟨c, hc, hmem⟩ := hs
      obtain ⟨hi, hj, hij⟩ := mem_pairs.mp hc
      by_cases hsk : skipOp c.2.2 (l.getD c.1 0) (l.getD c.2.1 0) = true
      · rw [if_pos hsk] at hmem
        simp at hmem
      · rw [Bool.not_eq_true] at hsk
        rw [if_neg (by rw [hsk]; exact Bool.false_ne_true)] at hmem
        have hvalid := validStrict_of_skipOp_false hsk
        have hna : isNatQ (l.getD c.1 0) := by
          rw [getD_eq_getElem' l c.1 hi]
          exact hnat _ (List.getElem_mem hi)
        have hnb : isNatQ (l.getD c.2.1 0) := by
          rw [getD_eq_getElem' l c.2.1 hj]
          exact hnat _ (List.getElem_mem hj)
        have hnres := isNatQ_apply hvalid hna hnb
        rcases List.mem_cons.mp hmem with rfl | hmem'
        · refine ⟨hna, hnb, hnres, rfl, ?_⟩
          intro hsub
          have : skipOp Op.sub (l.getD c.1 0) (l.getD c.2.1 0) = false := by
            rw [← hsub]; exact hsk
          simp only [skipOp, decide_eq_false_iff_not] at this
          exact not_lt.mp this
        · refine ih _ ?_ s hmem'
          intro x hx
          rcases List.mem_append.mp hx with hx' | hx'
          · exact hnat x (mem_of_mem_removeTwo hij hx')
          · obtain rfl : x = Op.apply c.2.2 (l.getD c.1 0) (l.getD c.2.1 0) := by
              simpa using hx'
            exact hnres

/-! ### Step application and termination bookkeeping -/

theorem length_applyStepAt (l : List ℚ) (i j : ℕ) (op : Op) (hi : i < l.length)
    (hj : j < l.length) (hij : i ≠ j) : (applyStepAt l i j op).length + 1 = l.length := by
  have := length_removeTwo l i j hi hj hij
  simp only [applyStepAt, List.length_append, List.length_cons, List.length_nil]
  omega

theorem applySteps_length : ∀ (steps : List (ℕ × ℕ × Op)) (l l' : List ℚ),
    applySteps l steps = some l' → l'.length + steps.length = l.length := by
  intro steps
  induction steps with
  | nil =>
    intro l l' h
    obtain rfl : l = l' := by simpa [applySteps] using h
    simp
  | cons c rest ih =>
    intro l l' h
    obtain ⟨i, j, op⟩ := c
    simp only [applySteps] at h
    by_cases hc : i ≠ j ∧ i < l.length ∧ j < l.length
    · rw [if_pos hc] at h
      have h1 := ih _ _ h
      have h2 := length_applyStepAt l i j op hc.2.1 hc.2.2 hc.1
      simp only [List.length_cons]
      omega
    · rw [if_neg hc] at h
      simp at h

/-! ### The strict search on integer inputs computes in `ℕ` -/

theorem ratTrunc_eq_floor {q : ℚ} (h : 0 ≤ q) : ratTrunc q = ⌊q⌋ := by
  rw [Rat.floor_def]
  exact Int.tdiv_eq_ediv (Rat.num_nonneg.mpr h) (Int.ofNat_nonneg q.den)

theorem ratTrunc_natCast_div (a b : ℕ) :
    ratTrunc ((a : ℚ) / (b : ℚ)) = ((a / b : ℕ) : ℤ) := by
  rcases Nat.eq_zero_or_pos b with rfl | hb
  · norm_num [ratTrunc]
  · have hbq : (0 : ℚ) < (b : ℚ) := by exact_mod_cast hb
    rw [ratTrunc_eq_floor (div_nonneg (Nat.cast_nonneg a) (le_of_lt hbq))]
    have hcast : ((a : ℕ) : ℚ) = (((a : ℕ) : ℤ) : ℚ) := by push_cast; rfl
    rw [hcast, Rat.floor_intCast_div_natCast]
    exact_mod_cast rfl

theorem jsMod_natCast (a b : ℕ) : jsMod (a : ℚ) (b : ℚ) = ((a % b : ℕ) : ℚ) := by
  unfold jsMod
  rw [ratTrunc_natCast_div, Int.cast_natCast]
  have h1 : b * (a / b) ≤ a := Nat.mul_div_le a b
  have h2 : (a % b : ℕ) = a - b * (a / b) := by
    have := Nat.div_add_mod a b
    omega
  rw [h2, Nat.cast_sub h1, Nat.cast_mul]

theorem skipOp_natCast (op : Op) (a b : ℕ) :
    skipOp op (a : ℚ) (b : ℚ) = skipN op a b := by
  cases op with
  | add => simp [skipOp, skipN, Nat.cast_lt]
  | mul => simp [skipOp, skipN, Nat.cast_lt]
  | sub => simp [skipOp, skipN, Nat.cast_lt]
  | div => simp [skipOp, skipN, jsMod_natCast, Nat.cast_eq_zero]

theorem apply_natCast {op : Op} {a b : ℕ} (h : skipN op a b = false) :
    Op.apply op (a : ℚ) (b : ℚ) = ((Op.applyN op a b : ℕ) : ℚ) := by
  cases op with
  | add => simp [Op.apply, Op.applyN]
  | mul => simp [Op.apply, Op.applyN]
  | sub =>
    simp only [skipN, decide_eq_false_iff_not, not_lt] at h
    simp [Op.apply, Op.applyN, Nat.cast_sub h]
  | div =>
    simp only [skipN, Bool.or_eq_false_iff, decide_eq_false_iff_not, not_not] at h
    obtain ⟨hb, hmod⟩ := h
    have hdvd : b ∣ a := Nat.dvd_of_mod_eq_zero hmod
    simp only [Op.apply, Op.applyN]
    exact (Nat.cast_div hdvd (by exact_mod_cast hb)).symm

theorem getD_map_natCast (l : List ℕ) : ∀ i : ℕ,
    (l.map (Nat.cast : ℕ → ℚ)).getD i 0 = ((l.getD i 0 : ℕ) : ℚ) := by
  induction l with
  | nil => intro i; simp
  | cons x xs ih =>
    intro i
    cases i with
    | zero => simp
    | succ n => simpa using ih n

theorem filterIdxAuxN_map (i j : ℕ) : ∀ (l : List ℕ) (k : ℕ),
    filterIdxAux i j (l.map (Nat.cast : ℕ → ℚ)) k
      = (filterIdxAuxN i j l k).map (Nat.cast : ℕ → ℚ) := by
  intro l
  induction l with
  | nil => intro k; rfl
  | cons x xs ih =>
    intro k
    simp only [List.map_cons, filterIdxAux, filterIdxAuxN]
    by_cases h : k ≠ i ∧ k ≠ j
    · rw [if_pos h, if_pos h, ih]
      rfl
    · rw [if_neg h, if_neg h, ih]

theorem removeTwoN_map (l : List ℕ) (i j : ℕ) :
    removeTwo (l.map (Nat.cast : ℕ → ℚ)) i j = (removeTwoN l i j).map (Nat.cast : ℕ → ℚ) :=
  filterIdxAuxN_map i j l 0

theorem pairs_eq_pairsLen (l : List ℚ) : pairs l = pairsLen l.length := rfl

theorem ratAbs_natCast_target (n : ℕ) :
    (ratAbs ((n : ℚ) - TARGET) < EPSILON) ↔ n = 24 := by
  rw [ratAbs_eq_abs]
  constructor
  · intro h
    by_contra hne
    have hz : ((n : ℤ) - 24 : ℤ) ≠ 0 := sub_ne_zero.mpr (by exact_mod_cast hne)
    have h2 : (1 : ℚ) ≤ |(n : ℚ) - TARGET| := by
      have hc : ((n : ℚ) - TARGET) = (((n : ℤ) - 24 : ℤ) : ℚ) := by
        push_cast [TARGET]
        ring
      rw [hc, ← Int.cast_abs]
      exact_mod_cast Int.one_le_abs hz
    have h3 : EPSILON < 1 := by norm_num [EPSILON]
    linarith
  · intro h
    subst h
    norm_num [TARGET, EPSILON]

theorem isFound_searchMatch (o : Option Step) :
    (match o with
      | some s => SearchResult.foundStep s
      | none => SearchResult.notFound).isFound = o.isSome := by
  cases o <;> rfl

theorem findSome?_isSome_eq_any {α β : Type} (L : List α) (f : α → Option β) :
    (L.findSome? f).isSome = L.any fun x => (f x).isSome := by
  induction L with
  | nil => rfl
  | cons x xs ih =>
    rw [List.findSome?_cons, List.any_cons]
    cases hfx : f x with
    | none => simp [ih]
    | some b => simp

theorem any_congr {α : Type} (L : List α) (f g : α → Bool)
    (h : ∀ x ∈ L, f x = g x) : L.any f = L.any g := by
  induction L with
  | nil => rfl
  | cons x xs ih =>
    rw [List.any_cons, List.any_cons, h x (List.mem_cons_self x xs),
      ih fun y hy => h y (List.mem_cons_of_mem x hy)]

theorem isSome_ite_found (b : Bool) (x : Step) :
    (if b = true then some x else none).isSome = b := by
  cases b <;> simp

theorem searchF_natCast : ∀ fuel (l : List ℕ),
    (searchF skipOp fuel (l.map (Nat.cast : ℕ → ℚ))).isFound = searchN fuel l := by
  intro fuel
  induction fuel with
  | zero =>
    intro l
    rfl
  | succ fuel ih =>
    intro l
    have hmaplen : (l.map (Nat.cast : ℕ → ℚ)).length = l.length := List.length_map l _
    by_cases hl : l.length = 1
    · obtain ⟨n, rfl⟩ := List.length_eq_one.mp hl
      have hL : searchF skipOp (fuel + 1) (([n] : List ℕ).map (Nat.cast : ℕ → ℚ)) =
          if ratAbs ((n : ℚ) - TARGET) < EPSILON then SearchResult.foundBase
          else SearchResult.notFound := by
        simp [searchF]
      have hR : searchN (fuel + 1) [n] = decide (n = 24) := by
        simp [searchN]
      rw [hL, hR]
      by_cases hc : n = 24
      · rw [if_pos (ratAbs_natCast_target n |>.mpr hc)]
        simp [SearchResult.isFound, hc]
      · rw [if_neg (fun hx => hc ((ratAbs_natCast_target n).mp hx))]
        simp [SearchResult.isFound, hc]
    · have hl' : ¬ (l.map (Nat.cast : ℕ → ℚ)).length = 1 := by rwa [hmaplen]
      have hL : searchF skipOp (fuel + 1) (l.map (Nat.cast : ℕ → ℚ)) =
          match (pairs (l.map (Nat.cast : ℕ → ℚ))).findSome?
              (attemptStep skipOp (fun l' => searchF skipOp fuel l')
                (l.map (Nat.cast : ℕ → ℚ))) with
          | some s => SearchResult.foundStep s
          | none => SearchResult.notFound := by
        simp [searchF, hl', hl]
      have hR : searchN (fuel + 1) l = (pairsLen l.length).any fun c =>
          if skipN c.2.2 (l.getD c.1 0) (l.getD c.2.1 0) then false
          else searchN fuel (removeTwoN l c.1 c.2.1 ++
            [Op.applyN c.2.2 (l.getD c.1 0) (l.getD c.2.1 0)]) := by
        simp [searchN, hl]
      rw [hL, hR, isFound_searchMatch, findSome?_isSome_eq_any,
        pairs_eq_pairsLen, hmaplen]
      apply any_congr
      intro c hc
      have hc' : c ∈ pairs (l.map (Nat.cast : ℕ → ℚ)) := by
        rw [pairs_eq_pairsLen, hmaplen]
        exact hc
      obtain ⟨hi, hj, hij⟩ := mem_pairs.mp hc'
      rw [hmaplen] at hi hj
      simp only [attemptStep]
      rw [getD_map_natCast l c.1, getD_map_natCast l c.2.1, skipOp_natCast]
      by_cases hsk : skipN c.2.2 (l.getD c.1 0) (l.getD c.2.1 0) = true
      · rw [hsk, if_pos rfl, if_pos rfl]
        rfl
      · rw [Bool.not_eq_true] at hsk
        rw [hsk, if_neg Bool.false_ne_true, if_neg Bool.false_ne_true]
        rw [removeTwoN_map, apply_natCast hsk]
        have hX : (removeTwoN l c.1 c.2.1).map (Nat.cast : ℕ → ℚ) ++
            [((Op.applyN c.2.2 (l.getD c.1 0) (l.getD c.2.1 0) : ℕ) : ℚ)] =
            (removeTwoN l c.1 c.2.1 ++
              [Op.applyN c.2.2 (l.getD c.1 0) (l.getD c.2.1 0)]).map (Nat.cast : ℕ → ℚ) := by
          rw [List.map_append]
          rfl
        rw [hX, isSome_ite_found, ih]

/-! ### Claims -/

/-- C1 (code-bug evidence): the spec requires `applyOperation(5, "÷", 0)` to
return the sentinel invalid result so the caller aborts the move, and the
code's own `performCalculation` carries a "Cannot divide by zero!" abort
branch guarded by `resultVal === null`. But `OPS["÷"].calc(5, 0)` is
JavaScript `5 / 0 = Infinity`, never `null`: the call yields
`some JSVal.posInf` (the move proceeds with `Infinity`), and the abort
branch is dead code — `performCalculation` never returns `none` for any
finite operands and any operator. -/
theorem performCalculation_div_zero_not_aborted :
    performCalculation 5 Op.div 0 = some JSVal.posInf ∧
      ∀ (a : ℚ) (op : Op) (b : ℚ), (performCalculation a op b).isSome = true := by
  constructor
  · decide
  · intro a op b
    have hnn : opsCalc op a b ≠ JSVal.null := by
      cases op with
      | add => simp [opsCalc]
      | sub => simp [opsCalc]
      | mul => simp [opsCalc]
      | div =>
        simp only [opsCalc, jsDiv]
        split_ifs <;> simp
    simp [performCalculation, hnn]

/-- C2 (code-bug evidence): the spec requires `isSolvable([3,3,8,8])` to be
true and the generator's hard-coded fallback quadruple to satisfy
`isSolvable`; the code's comment calls `[3,3,8,8]` a "Fallback safe
puzzle". But the solver is strict (integer-only intermediate results),
and the only way to make 24 from 3,3,8,8 goes through the fraction
`8 / (3 - 3/8)`: the code's own `findSolution([3,3,8,8])` returns `null`,
so the fallback puzzle is not solvable by the code's own check.
(Evaluated through the proved `ℕ`-valued mirror of the search.) -/
theorem findSolution_fallback_3388 :
    findSolution [3, 3, 8, 8] = SearchResult.notFound := by
  have hcast : ([3, 3, 8, 8] : List ℚ) = ([3, 3, 8, 8] : List ℕ).map (Nat.cast : ℕ → ℚ) := by
    norm_num
  have hfound : (findSolution [3, 3, 8, 8]).isFound = false := by
    show (searchF skipOp 4 ([3, 3, 8, 8] : List ℚ)).isFound = false
    rw [hcast, searchF_natCast 4 [3, 3, 8, 8]]
    decide
  cases hres : findSolution [3, 3, 8, 8] with
  | notFound => rfl
  | foundBase => rw [hres] at hfound; exact absurd hfound (by simp [SearchResult.isFound])
  | foundStep s => rw [hres] at hfound; exact absurd hfound (by simp [SearchResult.isFound])

/-- C3: when the search succeeds on a list of more than one number with a
step `s`, that step is the first success in the iteration order of the
source loops: the candidate list `pairs l` (positions `i` ascending, then
`j` ascending, then the operator in declared order `+`, `-`, `×`, `÷`)
splits as `L1 ++ c :: L2` where every candidate in `L1` fails and `c`
produces exactly `s`. Determinism on equal inputs is immediate since
`findSolution` is a pure function of its argument. -/
theorem findSolution_first_success (l : List ℚ) (s : Step) (hlen : 1 < l.length)
    (h : findSolution l = SearchResult.foundStep s) :
    ∃ L1 c L2, pairs l = L1 ++ c :: L2 ∧
      attemptStep skipOp (fun l' => findSolutionF (l.length - 1) l') l c = some s ∧
      ∀ c' ∈ L1, attemptStep skipOp (fun l' => findSolutionF (l.length - 1) l') l c' = none := by
  obtain ⟨m, hm⟩ : ∃ m, l.length = m + 1 := ⟨l.length - 1, by omega⟩
  have hm1 : l.length - 1 = m := by omega
  have hne : ¬ l.length = 1 := by omega
  have hunfold : findSolution l =
      match (pairs l).findSome? (attemptStep skipOp (fun l' => searchF skipOp m l') l) with
      | some s => SearchResult.foundStep s
      | none => SearchResult.notFound := by
    show searchF skipOp l.length l = _
    rw [hm]
    simp [searchF, hne]
  rw [hunfold] at h
  cases hfs : (pairs l).findSome? (attemptStep skipOp (fun l' => searchF skipOp m l') l) with
  | none => rw [hfs] at h; exact absurd h (by simp)
  | some s' =>
    rw [hfs] at h
    have hss : s' = s := by injection h
    subst hss
    obtain ⟨L1, c, L2, hsplit, hcsome, hnone⟩ := List.findSome?_eq_some_iff.mp hfs
    refine ⟨L1, c, L2, hsplit, ?_, ?_⟩
    · show attemptStep skipOp (fun l' => searchF skipOp (l.length - 1) l') l c = some s'
      rw [hm1]
      exact hcsome
    · intro c' hc'
      show attemptStep skipOp (fun l' => searchF skipOp (l.length - 1) l') l c' = none
      rw [hm1]
      exact hnone c' hc'

/-- Witness for C3 at a concrete input: `findSolution [4, 6]` succeeds with
the step `6 × 4 = 24`, and that step is the first success of the candidate
enumeration. -/
theorem findSolution_first_success_witness :
    1 < ([4, 6] : List ℚ).length ∧
    findSolution [4, 6] = SearchResult.foundStep ⟨6, Op.mul, 4, 24⟩ ∧
    ∃ L1 c L2, pairs [4, 6] = L1 ++ c :: L2 ∧
      attemptStep skipOp (fun l' => findSolutionF (([4, 6] : List ℚ).length - 1) l') [4, 6] c
        = some ⟨6, Op.mul, 4, 24⟩ ∧
      ∀ c' ∈ L1,
        attemptStep skipOp (fun l' => findSolutionF (([4, 6] : List ℚ).length - 1) l') [4, 6] c'
          = none := by
  have h1 : 1 < ([4, 6] : List ℚ).length := by decide
  have h2 : findSolution [4, 6] = SearchResult.foundStep ⟨6, Op.mul, 4, 24⟩ := by decide
  exact ⟨h1, h2, findSolution_first_success [4, 6] ⟨6, Op.mul, 4, 24⟩ h1 h2⟩

/-- C4: on a singleton input `[v]` the search succeeds exactly when
`|v - TARGET| < EPSILON` (the base case of `findSolution`: `true` within
the tolerance, `null` otherwise). -/
theorem findSolution_singleton_iff (v : ℚ) :
    (findSolution [v]).isFound = true ↔ |v - TARGET| < EPSILON := by
  have hunfold : findSolution [v] =
      if ratAbs (v - TARGET) < EPSILON then SearchResult.foundBase
      else SearchResult.notFound := rfl
  rw [← ratAbs_eq_abs, hunfold]
  by_cases hc : ratAbs (v - TARGET) < EPSILON
  · simp [hc, SearchResult.isFound]
  · simp [hc, SearchResult.isFound]

/-- C5: division safety of the solvability search. Every division
application the search can explore (collected by `allApps`, a superset of
the applications any single run performs) passes the guard first: the
divisor is nonzero and the quotient is exact (`a % b === 0` in the
JavaScript remainder semantics `jsMod`), so the search never divides by
zero and every result it computes is a defined rational; moreover any
step the search returns is one of those guarded applications. -/
theorem search_division_guarded :
    (∀ fuel (l : List ℚ) (s : Step), s ∈ allApps fuel l → s.op = Op.div →
        s.b ≠ 0 ∧ jsMod s.a s.b = 0) ∧
    (∀ fuel (l : List ℚ) (s : Step), findSolutionF fuel l = SearchResult.foundStep s →
        s ∈ allApps fuel l) :=
  ⟨allApps_div_guarded, foundStep_mem_allApps⟩

/-- C6: permutation invariance of the solvability verdict. For any two
lists that are permutations of one another — in particular any two
orderings of a quadruple — `findSolution` is found/not-found on one
exactly as on the other (both are equivalent to the multiset-level
predicate `Reaches24`). -/
theorem findSolution_perm_invariant (l l' : List ℚ) (h : l.Perm l') :
    (findSolution l).isFound = (findSolution l').isFound :=
  Bool.coe_iff_coe.mp ((findSolution_isFound_iff l).trans
    ((⟨fun x => x.perm h, fun x => x.perm h.symm⟩ : Reaches24 l ↔ Reaches24 l').trans
      (findSolution_isFound_iff l').symm))

/-- Witness for C6 at a concrete input: `[4, 6]` and its transposition
`[6, 4]` get the same verdict. -/
theorem findSolution_perm_invariant_witness :
    ([4, 6] : List ℚ).Perm [6, 4] ∧
      (findSolution [4, 6]).isFound = (findSolution [6, 4]).isFound :=
  ⟨List.Perm.swap 6 4 [], findSolution_perm_invariant [4, 6] [6, 4] (List.Perm.swap 6 4 [])⟩

/-- C7: `[1, 1, 1, 1]` is not solvable: the exhaustive strict search finds
no reduction of it to within `EPSILON` of `TARGET`, so `isSolvable`
(JavaScript truthiness of the result) is false.
(Evaluated through the proved `ℕ`-valued mirror of the search.) -/
theorem findSolution_1111_not_solvable :
    (findSolution [1, 1, 1, 1]).isFound = false := by
  have hcast : ([1, 1, 1, 1] : List ℚ) = ([1, 1, 1, 1] : List ℕ).map (Nat.cast : ℕ → ℚ) := by
    norm_num
  show (searchF skipOp 4 ([1, 1, 1, 1] : List ℚ)).isFound = false
  rw [hcast, searchF_natCast 4 [1, 1, 1, 1]]
  decide

/-- C8: the canonicalization pruning (`continue` when `a < b` for `+`, `×`
and `-`) does not change solvability verdicts: the spec's variant that
explores both operand orders under the same strict validity rules
(`findSolutionBoth`, built on `skipBoth`) is found/not-found exactly as
the source's pruned search, on every input list. -/
theorem findSolutionBoth_eq_findSolution (l : List ℚ) :
    (findSolutionBoth l).isFound = (findSolution l).isFound :=
  Bool.coe_iff_coe.mp ((findSolutionBoth_isFound_iff l).trans
    (findSolution_isFound_iff l).symm)

/-- C9: one reduction step removes the two operand positions and appends
the single result, so the working set shrinks by exactly one
(`(applyStepAt l i j op).length + 1 = l.length`); consequently a chain of
`k` valid steps ends with exactly `l.length - k` numbers — reaching a
single value in exactly `n - 1` steps from `n` numbers — and every
recursive call of the search is on a list one element shorter, so fuel
equal to the length suffices: `findSolutionF fuel l = findSolution l`
for every `fuel ≥ l.length` (termination of the source recursion). -/
theorem step_reduction_and_termination :
    (∀ (l : List ℚ) (i j : ℕ) (op : Op), i < l.length → j < l.length → i ≠ j →
        (applyStepAt l i j op).length + 1 = l.length) ∧
    (∀ (steps : List (ℕ × ℕ × Op)) (l l' : List ℚ), applySteps l steps = some l' →
        l'.length + steps.length = l.length) ∧
    (∀ fuel (l : List ℚ), l.length ≤ fuel → findSolutionF fuel l = findSolution l) :=
  ⟨length_applyStepAt, applySteps_length,
    fun fuel l h => searchF_fuel_irrelevant skipOp fuel l.length l h le_rfl⟩

/-- C10: closure over nonnegative integers. If every input value is a
nonnegative integer then every application the search can explore has
nonnegative integer operands and result (`+` and `×` always; `-` only
attempted when `a ≥ b`; `÷` only when the divisor is nonzero and divides
exactly), each recorded result equals applying its operator to its
operands, and any step the search returns has a nonnegative integer
result equal to `op` applied to its operands. -/
theorem search_nat_closure (fuel : ℕ) (l : List ℚ) (hnat : ∀ x ∈ l, isNatQ x) :
    (∀ s ∈ allApps fuel l, isNatQ s.a ∧ isNatQ s.b ∧ isNatQ s.res ∧
        s.res = Op.apply s.op s.a s.b ∧ (s.op = Op.sub → s.b ≤ s.a) ∧
        (s.op = Op.div → s.b ≠ 0 ∧ jsMod s.a s.b = 0)) ∧
    (∀ s, findSolutionF fuel l = SearchResult.foundStep s →
        isNatQ s.res ∧ s.res = Op.apply s.op s.a s.b) := by
  constructor
  · intro s hs
    obtain ⟨h1, h2, h3, h4, h5⟩ := allApps_nat_closure fuel l hnat s hs
    exact ⟨h1, h2, h3, h4, h5, fun hdiv => allApps_div_guarded fuel l s hs hdiv⟩
  · intro s hstep
    have hs := foundStep_mem_allApps fuel l s hstep
    obtain ⟨h1, h2, h3, h4, h5⟩ := allApps_nat_closure fuel l hnat s hs
    exact ⟨h3, h4⟩

/-- Witness for C10 at a concrete input: the all-nonnegative-integer list
`[4, 1]`. -/
theorem search_nat_closure_witness :
    (∀ x ∈ ([4, 1] : List ℚ), isNatQ x) ∧
    (∀ s ∈ allApps 2 [4, 1], isNatQ s.a ∧ isNatQ s.b ∧ isNatQ s.res ∧
        s.res = Op.apply s.op s.a s.b ∧ (s.op = Op.sub → s.b ≤ s.a) ∧
        (s.op = Op.div → s.b ≠ 0 ∧ jsMod s.a s.b = 0)) ∧
    (∀ s, findSolutionF 2 [4, 1] = SearchResult.foundStep s →
        isNatQ s.res ∧ s.res = Op.apply s.op s.a s.b) := by
  have hnat : ∀ x ∈ ([4, 1] : List ℚ), isNatQ x := by
    intro x hx
    rcases List.mem_cons.mp hx with rfl | hx'
    · exact ⟨4, by norm_num⟩
    · rcases List.mem_cons.mp hx' with rfl | hx''
      · exact ⟨1, by norm_num⟩
      · simp at hx''
  exact ⟨hnat, (search_nat_closure 2 [4, 1] hnat).1, (search_nat_closure 2 [4, 1] hnat).2⟩
